import Mathlib

/-!
Verification of the nucleus RAG / chat / plugin engine.

Texts are modelled as lists of bytes (`List Nat`, each < 256), mirroring the
byte-indexed operations of `str` in the source.  Machine integers only appear
as lengths and indices, which cannot overflow in the modelled ranges, so plain
`Nat` is used.  Stateful store operations are modelled by explicit state
passing; fallible operations return `Except` or pair the new state with an
`Except` outcome.
-/

namespace Nucleus

/-! ## Byte-level UTF-8 boundaries and `chunk_text`
    (src/nucleus-core/src/rag/indexer.rs) -/

/-- Model of Rust `str::is_char_boundary` on a byte list: true at 0 and at the
total length, and at any index whose byte is not a UTF-8 continuation byte
(`b < 0x80 || b >= 0xC0`). -/
def isCharBoundary (t : List Nat) (i : Nat) : Bool :=
  if i = 0 then true
  else
    match t.get? i with
    | some b => decide (b < 128) || decide (192 ≤ b)
    | none => decide (i = t.length)

/-- Model of the inner loop `while end > start && !text.is_char_boundary(end)
\x7b end -= 1 \x7d`: structural recursion on the end index. -/
def snapDown (t : List Nat) (lo : Nat) : Nat → Nat
  | 0 => 0
  | e + 1 =>
    if lo < e + 1 ∧ ¬ isCharBoundary t (e + 1) then snapDown t lo e else e + 1

/-- Fueled model of the inner loop `while start < text.len() &&
!text.is_char_boundary(start) \x7b start += 1 \x7d`. -/
def snapUpF (t : List Nat) : Nat → Nat → Nat
  | 0, s => s
  | f + 1, s =>
    if s < t.length ∧ ¬ isCharBoundary t s then snapUpF t f (s + 1) else s

/-- The boundary-seeking increment loop; `t.length - s` steps of fuel always
suffice because the loop stops at an index ≥ `t.length`. -/
def snapUp (t : List Nat) (s : Nat) : Nat := snapUpF t (t.length - s) s

/-- Fueled model of the main `while start < text.len()` loop of `chunk_text`.
Each iteration slices `text[start..end]` with `end` the closest boundary at or
below `min (start + chunk_size) text.len()`, skips empty slices, breaks when
`end` reaches the total length, and otherwise advances `start` by
`chunk_size.saturating_sub(overlap)` snapped up to a boundary.  `none` means
the fuel ran out before the loop finished. -/
def chunkLoop (t : List Nat) (C O : Nat) : Nat → Nat → Option (List (List Nat))
  | 0, _ => none
  | fuel + 1, start =>
    if start < t.length then
      let e := snapDown t start (min (start + C) t.length)
      let chunk := (t.drop start).take (e - start)
      if e = t.length then
        some (if chunk.isEmpty then [] else [chunk])
      else
        match chunkLoop t C O fuel (snapUp t (start + (C - O))) with
        | none => none
        | some rest => some (if chunk.isEmpty then rest else chunk :: rest)
    else some []

/-- Model of `chunk_text` before discharging the fuel: empty text gives `[]`,
text of length at most `chunk_size` gives the whole text, otherwise the loop
runs. -/
def chunk_textAux (t : List Nat) (C O fuel : Nat) : Option (List (List Nat)) :=
  if t.length = 0 then some []
  else if t.length ≤ C then some [t]
  else chunkLoop t C O fuel 0

/-- Model of `chunk_text(text, chunk_size, overlap)`.  Fuel `t.length + 1`
bounds the loop; the termination theorem shows it is never exhausted when
`overlap < chunk_size`. -/
def chunk_text (t : List Nat) (C O : Nat) : List (List Nat) :=
  (chunk_textAux t C O (t.length + 1)).getD []

/-- Rounding a position up to the nearest UTF-8 boundary, written from the
spec wording ("starts rounded up ... to UTF-8 boundaries"): the least distance
`d` such that `s + d` is a boundary, found by scanning upward (defaulting to
the total length). -/
def roundUpSpec (t : List Nat) (s : Nat) : Nat :=
  s + (((List.range (t.length + 1 - s)).find? (fun d => isCharBoundary t (s + d))).getD
    (t.length - s))

/-- Rounding an end position down to the nearest UTF-8 boundary not below
`lo`, written from the spec wording ("ends rounded down to UTF-8
boundaries"): the least distance `d` such that `e - d` is a boundary,
defaulting to `lo`. -/
def roundDownSpec (t : List Nat) (lo e : Nat) : Nat :=
  e - (((List.range (e + 1 - lo)).find? (fun d => isCharBoundary t (e - d))).getD (e - lo))

/-- Chunk generation written from the claim wording: start positions advance
by `step = C - O` (each next start rounded up to a boundary), each chunk ends
at `min (start + C) L` rounded down to a boundary, empty chunks are
discarded, iteration stops when the end reaches `L`. -/
def chunkSpecLoop (t : List Nat) (C O : Nat) : Nat → Nat → List (List Nat)
  | 0, _ => []
  | fuel + 1, start =>
    if start < t.length then
      let e := roundDownSpec t start (min (start + C) t.length)
      let chunk := (t.drop start).take (e - start)
      let rest :=
        if e = t.length then []
        else chunkSpecLoop t C O fuel (roundUpSpec t (start + (C - O)))
      if chunk.isEmpty then rest else chunk :: rest
    else []

/-- The chunk list described by the claim for texts longer than one chunk. -/
def chunkSpec (t : List Nat) (C O : Nat) : List (List Nat) :=
  chunkSpecLoop t C O (t.length + 1) 0

/-- Reconstruction operator from the spec: concatenate each non-last chunk's
first `k = C - O` bytes, then the whole last chunk. -/
def reconChunks (k : Nat) : List (List Nat) → List Nat
  | [] => []
  | [c] => c
  | c :: c2 :: cs => c.take k ++ reconChunks k (c2 :: cs)

-- Sanity checks against the Rust unit tests (these mirror
-- test_chunk_text_with_overlap and test_chunk_text_small).
example :
    chunk_text [48, 49, 50, 51, 52, 53, 54, 55, 56, 57, 65, 66, 67, 68, 69, 70] 10 2 =
      [[48, 49, 50, 51, 52, 53, 54, 55, 56, 57], [56, 57, 65, 66, 67, 68, 69, 70]] := by
  decide

example : chunk_text [72, 101, 108, 108, 111] 10 2 = [[72, 101, 108, 108, 111]] := by
  decide

/-! ### Boundary-rounding lemmas -/

lemma isCharBoundary_length (t : List Nat) : isCharBoundary t t.length = true := by
  unfold isCharBoundary
  by_cases h : t.length = 0
  · simp [h]
  · have hn : t.get? t.length = none := by
      rw [List.get?_eq_none]
    simp [h, hn]

lemma snapDown_of_boundary (t : List Nat) (lo e : Nat) (h : isCharBoundary t e = true) :
    snapDown t lo e = e := by
  cases e with
  | zero => rfl
  | succ m =>
    unfold snapDown
    rw [if_neg]
    intro hc
    exact hc.2 h

lemma snapDown_le (t : List Nat) (lo : Nat) : ∀ e, snapDown t lo e ≤ e := by
  intro e
  induction e with
  | zero => simp [snapDown]
  | succ m ih =>
    unfold snapDown
    split
    · exact Nat.le_trans ih (Nat.le_succ m)
    · exact Nat.le_refl _

lemma snapUpF_ge (t : List Nat) : ∀ f s, s ≤ snapUpF t f s := by
  intro f
  induction f with
  | zero => intro s; exact Nat.le_refl s
  | succ m ih =>
    intro s
    unfold snapUpF
    split
    · exact Nat.le_trans (Nat.le_succ s) (ih (s + 1))
    · exact Nat.le_refl s

lemma snapUp_ge (t : List Nat) (s : Nat) : s ≤ snapUp t s := snapUpF_ge t _ s

lemma roundUpSpec_of_boundary (t : List Nat) (s : Nat) (hs : s ≤ t.length)
    (h : isCharBoundary t s = true) : roundUpSpec t s = s := by
  unfold roundUpSpec
  have hr : t.length + 1 - s = (t.length - s) + 1 := by omega
  rw [hr, List.range_succ_eq_map, List.find?_cons_of_pos]
  · rfl
  · simpa using h

lemma roundUpSpec_step (t : List Nat) (s : Nat) (hs : s < t.length)
    (h : ¬ isCharBoundary t s = true) : roundUpSpec t s = roundUpSpec t (s + 1) := by
  unfold roundUpSpec
  have hr : t.length + 1 - s = (t.length - s) + 1 := by omega
  have hr2 : t.length - s = t.length + 1 - (s + 1) := by omega
  rw [hr, List.range_succ_eq_map, List.find?_cons_of_neg _ (by simpa using h),
    List.find?_map]
  have hp : ((fun d => isCharBoundary t (s + d)) ∘ Nat.succ) =
      fun d => isCharBoundary t (s + 1 + d) := by
    funext d
    have hsd : s + Nat.succ d = s + 1 + d := by omega
    simp [Function.comp, hsd]
  rw [hp, hr2]
  cases hf : (List.range (t.length + 1 - (s + 1))).find? fun d => isCharBoundary t (s + 1 + d) with
  | none =>
    simp only [Option.map_none', Option.getD_none]
    omega
  | some d =>
    simp only [Option.map_some', Option.getD_some]
    omega

lemma snapUpF_eq_roundUpSpec (t : List Nat) :
    ∀ f s, t.length ≤ s + f → snapUpF t f s = roundUpSpec t s := by
  intro f
  induction f with
  | zero =>
    intro s hs
    unfold snapUpF roundUpSpec
    rcases Nat.lt_or_ge t.length s with h | h
    · have hr : t.length + 1 - s = 0 := by omega
      have hd : t.length - s = 0 := by omega
      simp [hr, hd, List.range_zero]
    · have hse : s = t.length := by omega
      have hr : t.length + 1 - s = 1 := by omega
      have hb : isCharBoundary t (s + 0) = true := by
        rw [Nat.add_zero, hse]
        exact isCharBoundary_length t
      have hrange : List.range 1 = [0] := rfl
      rw [hr, hrange, List.find?_cons_of_pos, Option.getD_some]
      · simp
      · simpa using hb
  | succ m ih =>
    intro s hs
    unfold snapUpF
    split
    · next hc =>
      rw [ih (s + 1) (by omega)]
      exact (roundUpSpec_step t s hc.1 hc.2).symm
    · next hc =>
      rcases Nat.lt_or_ge s t.length with h | h
      · have hb : isCharBoundary t s = true := by
          by_contra hb
          exact hc ⟨h, hb⟩
        exact (roundUpSpec_of_boundary t s (Nat.le_of_lt h) hb).symm
      · rcases Nat.lt_or_ge t.length s with h2 | h2
        · unfold roundUpSpec
          have hr : t.length + 1 - s = 0 := by omega
          have hd : t.length - s = 0 := by omega
          simp [hr, hd, List.range_zero]
        · have hse : s = t.length := by omega
          exact (roundUpSpec_of_boundary t s (by omega)
            (by rw [hse]; exact isCharBoundary_length t)).symm

lemma snapUp_eq_roundUpSpec (t : List Nat) (s : Nat) : snapUp t s = roundUpSpec t s :=
  snapUpF_eq_roundUpSpec t (t.length - s) s (by omega)

lemma roundDownSpec_of_boundary (t : List Nat) (lo e : Nat)
    (h : isCharBoundary t e = true) : roundDownSpec t lo e = e := by
  unfold roundDownSpec
  rcases Nat.lt_or_ge e lo with hlt | hge
  · have hr : e + 1 - lo = 0 := by omega
    have hd : e - lo = 0 := by omega
    simp [hr, hd, List.range_zero]
  · have hr : e + 1 - lo = (e - lo) + 1 := by omega
    rw [hr, List.range_succ_eq_map, List.find?_cons_of_pos]
    · rfl
    · simpa using h

lemma roundDownSpec_step (t : List Nat) (lo e : Nat) (hlo : lo ≤ e)
    (h : ¬ isCharBoundary t (e + 1) = true) :
    roundDownSpec t lo (e + 1) = roundDownSpec t lo e := by
  unfold roundDownSpec
  have hr : e + 1 + 1 - lo = (e + 1 - lo) + 1 := by omega
  rw [hr, List.range_succ_eq_map,
    List.find?_cons_of_neg _ (by simpa using h), List.find?_map]
  have hp : ((fun d => isCharBoundary t (e + 1 - d)) ∘ Nat.succ) =
      fun d => isCharBoundary t (e - d) := by
    funext d
    simp [Function.comp, Nat.succ_sub_succ]
  rw [hp]
  cases hf : (List.range (e + 1 - lo)).find? fun d => isCharBoundary t (e - d) with
  | none =>
    simp only [Option.map_none', Option.getD_none]
    omega
  | some d =>
    simp only [Option.map_some', Option.getD_some]
    omega

lemma snapDown_eq_roundDownSpec (t : List Nat) (lo : Nat) :
    ∀ e, snapDown t lo e = roundDownSpec t lo e := by
  intro e
  induction e with
  | zero =>
    unfold snapDown roundDownSpec
    simp
  | succ m ih =>
    unfold snapDown
    split
    · next hc =>
      rw [ih]
      exact (roundDownSpec_step t lo m (by omega) hc.2).symm
    · next hc =>
      by_cases hb : isCharBoundary t (m + 1) = true
      · exact (roundDownSpec_of_boundary t lo (m + 1) hb).symm
      · have hlo : ¬ lo < m + 1 := by
          intro hlt
          exact hc ⟨hlt, hb⟩
        unfold roundDownSpec
        have hr : m + 1 + 1 - lo = 0 ∨ m + 1 + 1 - lo = 1 := by omega
        rcases hr with hr | hr
        · have hd : m + 1 - lo = 0 := by omega
          simp [hr, hd, List.range_zero]
        · have hd : m + 1 - lo = 0 := by omega
          have hrange : List.range 1 = [0] := rfl
          rw [hr, hrange, List.find?_cons_of_neg _ (by simpa using hb), List.find?_nil]
          simp [hd]

/-! ### Termination of the chunking loop and refinement of the spec loop -/

lemma chunkLoop_isSome (t : List Nat) (C O : Nat) (hO : O < C) :
    ∀ fuel s, t.length - s < fuel → (chunkLoop t C O fuel s).isSome = true := by
  intro fuel
  induction fuel with
  | zero =>
    intro s h
    omega
  | succ f ih =>
    intro s h
    simp only [chunkLoop]
    by_cases hs : s < t.length
    · rw [if_pos hs]
      by_cases he : snapDown t s (min (s + C) t.length) = t.length
      · simp [he]
      · rw [if_neg he]
        have hge : s + (C - O) ≤ snapUp t (s + (C - O)) := snapUp_ge t _
        have hb : t.length - snapUp t (s + (C - O)) < f := by omega
        obtain ⟨rest, hrest⟩ := Option.isSome_iff_exists.mp (ih _ hb)
        rw [hrest]
        rfl
    · rw [if_neg hs]
      rfl

lemma chunkLoop_eq_chunkSpecLoop (t : List Nat) (C O : Nat) :
    ∀ fuel s cs, chunkLoop t C O fuel s = some cs → chunkSpecLoop t C O fuel s = cs := by
  intro fuel
  induction fuel with
  | zero =>
    intro s cs h
    simp [chunkLoop] at h
  | succ f ih =>
    intro s cs h
    simp only [chunkLoop] at h
    simp only [chunkSpecLoop]
    rw [← snapDown_eq_roundDownSpec, ← snapUp_eq_roundUpSpec]
    by_cases hs : s < t.length
    · rw [if_pos hs] at h ⊢
      by_cases he : snapDown t s (min (s + C) t.length) = t.length
      · rw [if_pos he] at h ⊢
        have hcs : cs = if ((t.drop s).take (snapDown t s (min (s + C) t.length) - s)).isEmpty
            then [] else [(t.drop s).take (snapDown t s (min (s + C) t.length) - s)] := by
          exact (Option.some_inj.mp h).symm
        rw [hcs]
      · rw [if_neg he] at h ⊢
        cases hrec : chunkLoop t C O f (snapUp t (s + (C - O))) with
        | none =>
          rw [hrec] at h
          exact absurd h (by simp)
        | some rest =>
          rw [hrec] at h
          rw [ih _ rest hrec]
          exact Option.some_inj.mp h
    · rw [if_neg hs] at h ⊢
      exact Option.some_inj.mp h

/-- Claim C9: chunk splitting terminates whenever `overlap < chunk_size`:
the loop advances its start strictly (by at least `step = C - O ≥ 1`, plus
the boundary adjustment, which only increases it), so a fuel of
`t.length + 1` iterations is never exhausted and the fueled model returns a
result. -/
theorem chunk_text_terminates (t : List Nat) (C O : Nat) (hO : O < C) :
    chunk_textAux t C O (t.length + 1) = some (chunk_text t C O) ∧
    ∀ start : Nat, start < snapUp t (start + (C - O)) := by
  constructor
  · have hsome : (chunk_textAux t C O (t.length + 1)).isSome = true := by
      unfold chunk_textAux
      by_cases h0 : t.length = 0
      · rw [if_pos h0]; rfl
      · rw [if_neg h0]
        by_cases h1 : t.length ≤ C
        · rw [if_pos h1]; rfl
        · rw [if_neg h1]
          exact chunkLoop_isSome t C O hO (t.length + 1) 0 (by omega)
    obtain ⟨cs, hcs⟩ := Option.isSome_iff_exists.mp hsome
    rw [hcs]
    unfold chunk_text
    rw [hcs]
    rfl
  · intro start
    have := snapUp_ge t (start + (C - O))
    omega

/-- Witness for the termination theorem at a concrete input. -/
theorem chunk_text_terminates_witness :
    chunk_textAux [72, 101, 108] 1 0 4 = some (chunk_text [72, 101, 108] 1 0) := by
  have h := (chunk_text_terminates [72, 101, 108] 1 0 (by decide)).1
  simpa using h

/-- Claim C1: `chunk_text` returns `[]` on empty text, `[T]` when the text
fits in one chunk, and otherwise the chunk list described by the spec (starts
advancing by `step = C - O` rounded up to UTF-8 boundaries, ends at
`min (start + C) L` rounded down, empty chunks discarded, stopping when the
end reaches `L`); in particular the two concrete scenarios S1 and S2 hold
(`"0123456789ABCDEF"` and `"Hello"` as byte lists). -/
theorem chunk_text_correct (t : List Nat) (C O : Nat) (hO : O < C) :
    (t.length = 0 → chunk_text t C O = []) ∧
    (0 < t.length → t.length ≤ C → chunk_text t C O = [t]) ∧
    (C < t.length → chunk_text t C O = chunkSpec t C O) ∧
    chunk_text [48, 49, 50, 51, 52, 53, 54, 55, 56, 57, 65, 66, 67, 68, 69, 70] 10 2 =
      [[48, 49, 50, 51, 52, 53, 54, 55, 56, 57], [56, 57, 65, 66, 67, 68, 69, 70]] ∧
    chunk_text [72, 101, 108, 108, 111] 10 2 = [[72, 101, 108, 108, 111]] := by
  refine ⟨?_, ?_, ?_, by decide, by decide⟩
  · intro h
    unfold chunk_text chunk_textAux
    rw [if_pos h]
    rfl
  · intro h1 h2
    unfold chunk_text chunk_textAux
    rw [if_neg (by omega), if_pos h2]
    rfl
  · intro h
    have hsome := chunkLoop_isSome t C O hO (t.length + 1) 0 (by omega)
    obtain ⟨cs, hcs⟩ := Option.isSome_iff_exists.mp hsome
    unfold chunk_text chunk_textAux chunkSpec
    rw [if_neg (by omega), if_neg (by omega), hcs]
    exact (chunkLoop_eq_chunkSpecLoop t C O (t.length + 1) 0 cs hcs).symm

/-- Witness for the chunking correctness theorem at concrete inputs. -/
theorem chunk_text_correct_witness :
    chunk_text [] 10 2 = [] ∧ chunk_text [72, 101, 108, 108, 111] 10 2 =
      [[72, 101, 108, 108, 111]] :=
  ⟨(chunk_text_correct [] 10 2 (by decide)).1 rfl,
    (chunk_text_correct [72, 101, 108, 108, 111] 10 2 (by decide)).2.1 (by decide) (by decide)⟩

/-! ### Behaviour on single-byte (ASCII) texts -/

/-- Start positions taken by the chunking loop on a text of length `L` all of
whose positions are UTF-8 boundaries. -/
def chunkStarts (C O L : Nat) : Nat → Nat → List Nat
  | 0, _ => []
  | f + 1, s => if s + C < L then s :: chunkStarts C O L f (s + (C - O)) else [s]

lemma ascii_isCharBoundary (t : List Nat) (hA : ∀ b ∈ t, b < 128) (i : Nat)
    (hi : i ≤ t.length) : isCharBoundary t i = true := by
  unfold isCharBoundary
  by_cases h0 : i = 0
  · simp [h0]
  · rw [if_neg h0]
    cases hg : t.get? i with
    | some b =>
      have hb : b ∈ t := List.get?_mem hg
      have := hA b hb
      simp [this]
    | none =>
      have hlen : t.length ≤ i := List.get?_eq_none.mp hg
      have : i = t.length := le_antisymm hi hlen
      simp [this]

lemma ascii_snapUp (t : List Nat) (hA : ∀ b ∈ t, b < 128) (s : Nat) : snapUp t s = s := by
  unfold snapUp
  cases hf : t.length - s with
  | zero => rfl
  | succ m =>
    unfold snapUpF
    rw [if_neg]
    intro hc
    exact hc.2 (ascii_isCharBoundary t hA s (Nat.le_of_lt hc.1))

lemma ascii_snapDown (t : List Nat) (hA : ∀ b ∈ t, b < 128) (lo e : Nat)
    (he : e ≤ t.length) : snapDown t lo e = e :=
  snapDown_of_boundary t lo e (ascii_isCharBoundary t hA e he)

lemma take_drop_isEmpty_false (t : List Nat) (s n : Nat) (hs : s < t.length) (hn : 0 < n) :
    ((t.drop s).take n).isEmpty = false := by
  cases hl : (t.drop s).take n with
  | nil =>
    have hlen : ((t.drop s).take n).length = 0 := by rw [hl]; rfl
    rw [List.length_take, List.length_drop] at hlen
    omega
  | cons a l => rfl

lemma ascii_chunkLoop (t : List Nat) (C O : Nat) (hA : ∀ b ∈ t, b < 128) (hO : O < C) :
    ∀ fuel s, s < t.length → t.length - s ≤ fuel →
      chunkLoop t C O fuel s =
        some ((chunkStarts C O t.length fuel s).map (fun a => (t.drop a).take C)) := by
  intro fuel
  induction fuel with
  | zero =>
    intro s hs hf
    omega
  | succ f ih =>
    intro s hs hf
    simp only [chunkLoop, chunkStarts]
    rw [if_pos hs]
    by_cases hc : s + C < t.length
    · rw [if_pos hc]
      have hmin : min (s + C) t.length = s + C := by omega
      rw [hmin, ascii_snapDown t hA s (s + C) (by omega)]
      rw [if_neg (by omega)]
      rw [ascii_snapUp t hA (s + (C - O))]
      rw [ih (s + (C - O)) (by omega) (by omega)]
      have hCC : s + C - s = C := by omega
      rw [hCC]
      have hne : ((t.drop s).take C).isEmpty = false :=
        take_drop_isEmpty_false t s C hs (by omega)
      simp [hne]
    · rw [if_neg hc]
      have hmin : min (s + C) t.length = t.length := by omega
      rw [hmin, ascii_snapDown t hA s t.length (Nat.le_refl _)]
      rw [if_pos rfl]
      have hne : ((t.drop s).take (t.length - s)).isEmpty = false :=
        take_drop_isEmpty_false t s (t.length - s) hs (by omega)
      have h1 : (t.drop s).take (t.length - s) = t.drop s :=
        List.take_of_length_le (by rw [List.length_drop])
      have h2 : (t.drop s).take C = t.drop s :=
        List.take_of_length_le (by rw [List.length_drop]; omega)
      simp [hne, h1, h2, hs]

lemma chunkStarts_head (C O L : Nat) :
    ∀ f s b rest, chunkStarts C O L f s = b :: rest → b = s := by
  intro f s b rest h
  cases f with
  | zero => exact absurd h (by simp [chunkStarts])
  | succ g =>
    simp only [chunkStarts] at h
    by_cases hc : s + C < L
    · rw [if_pos hc] at h
      exact (List.cons.injEq _ _ _ _ ▸ h).1.symm
    · rw [if_neg hc] at h
      exact (List.cons.injEq _ _ _ _ ▸ h).1.symm

lemma chunkStarts_cons (C O L : Nat) (f s : Nat) (hf : 0 < f) :
    ∃ rest, chunkStarts C O L f s = s :: rest := by
  cases f with
  | zero => omega
  | succ g =>
    simp only [chunkStarts]
    by_cases hc : s + C < L
    · exact ⟨chunkStarts C O L g (s + (C - O)), by rw [if_pos hc]⟩
    · exact ⟨[], by rw [if_neg hc]⟩

lemma chunkStarts_coverage (C O L : Nat) (hO : O < C) :
    ∀ f s j, s < L → L - s ≤ f → s ≤ j → j < L →
      ∃ a ∈ chunkStarts C O L f s, a ≤ j ∧ j < a + C := by
  intro f
  induction f with
  | zero =>
    intro s j hs hf hj hjL
    omega
  | succ g ih =>
    intro s j hs hf hj hjL
    simp only [chunkStarts]
    by_cases hc : s + C < L
    · rw [if_pos hc]
      by_cases hcj : j < s + C
      · exact ⟨s, List.mem_cons_self _ _, hj, hcj⟩
      · have hstep : s + (C - O) ≤ j := by omega
        obtain ⟨a, ha, haj⟩ := ih (s + (C - O)) j (by omega) (by omega) hstep hjL
        exact ⟨a, List.mem_cons_of_mem _ ha, haj⟩
    · rw [if_neg hc]
      exact ⟨s, List.mem_singleton.mpr rfl, hj, by omega⟩

lemma chunkStarts_chain (C O L : Nat) :
    ∀ f s, List.Chain' (fun a b => b = a + (C - O)) (chunkStarts C O L f s) := by
  intro f
  induction f with
  | zero =>
    intro s
    simp [chunkStarts]
  | succ g ih =>
    intro s
    simp only [chunkStarts]
    by_cases hc : s + C < L
    · rw [if_pos hc]
      cases hcf : chunkStarts C O L g (s + (C - O)) with
      | nil => simp
      | cons b rest =>
        rw [List.chain'_cons]
        refine ⟨?_, ?_⟩
        · exact chunkStarts_head C O L g (s + (C - O)) b rest hcf
        · have := ih (s + (C - O))
          rw [hcf] at this
          exact this
    · rw [if_neg hc]
      simp

lemma chunkStarts_recon (t : List Nat) (C O : Nat) (hO : O < C) :
    ∀ f s, s < t.length → t.length - s ≤ f →
      reconChunks (C - O)
        ((chunkStarts C O t.length f s).map (fun a => (t.drop a).take C)) = t.drop s := by
  intro f
  induction f with
  | zero =>
    intro s hs hf
    omega
  | succ g ih =>
    intro s hs hf
    simp only [chunkStarts]
    by_cases hc : s + C < t.length
    · rw [if_pos hc]
      have hse : s + (C - O) < t.length := by omega
      have hfe : t.length - (s + (C - O)) ≤ g := by omega
      have hg : 0 < g := by omega
      obtain ⟨rest, hrest⟩ := chunkStarts_cons C O t.length g (s + (C - O)) hg
      rw [List.map_cons, hrest, List.map_cons]
      simp only [reconChunks]
      have hrec := ih (s + (C - O)) hse hfe
      rw [hrest, List.map_cons] at hrec
      rw [hrec]
      rw [List.take_take]
      have hmin : (C - O) ⊓ C = C - O := by omega
      rw [hmin]
      have hdd : (t.drop s).drop (C - O) = t.drop (s + (C - O)) := by
        rw [List.drop_drop]
      rw [← hdd, List.take_append_drop]
    · rw [if_neg hc]
      simp only [List.map_cons, List.map_nil, reconChunks]
      exact List.take_of_length_le (by rw [List.length_drop]; omega)

lemma chunkStarts_overlap (t : List Nat) (C O : Nat) (hO : O < C) (f s : Nat) :
    List.Chain' (fun u v => u.drop (C - O) = v.take O)
      ((chunkStarts C O t.length f s).map (fun a => (t.drop a).take C)) := by
  rw [List.chain'_map]
  refine List.Chain'.imp ?_ (chunkStarts_chain C O t.length f s)
  intro a b hab
  subst hab
  rw [List.drop_take, List.drop_drop, List.take_take]
  have h1 : C - (C - O) = O := by omega
  have h2 : O ⊓ C = O := by omega
  rw [h1, h2]

/-- Claim C7 as stated is false on multi-byte UTF-8 text: for the valid
UTF-8 text "01234567" ++ U+1D11E ++ "abcdef" (U+1D11E is the four bytes
240, 157, 132, 158) with `C = 10`, `O = 1`, the four bytes of U+1D11E occur
in the text but in no chunk, and the spec reconstruction does not rebuild the
text. -/
theorem chunk_text_reconstruction_counterexample :
    (0 < 10 ∧ 1 < 10) ∧
    (240 ∈ [48, 49, 50, 51, 52, 53, 54, 55, 240, 157, 132, 158, 97, 98, 99, 100, 101, 102] ∧
      ∀ c ∈ chunk_text [48, 49, 50, 51, 52, 53, 54, 55, 240, 157, 132, 158,
        97, 98, 99, 100, 101, 102] 10 1, 240 ∉ c) ∧
    reconChunks (10 - 1)
        (chunk_text [48, 49, 50, 51, 52, 53, 54, 55, 240, 157, 132, 158,
          97, 98, 99, 100, 101, 102] 10 1) ≠
      [48, 49, 50, 51, 52, 53, 54, 55, 240, 157, 132, 158, 97, 98, 99, 100, 101, 102] := by
  refine ⟨⟨by decide, by decide⟩, ⟨by decide, by decide⟩, by decide⟩

/-- Claim C7, amended to texts of single-byte characters (every byte below
0x80, so every index is a UTF-8 boundary — on multi-byte text the boundary
adjustment can drop bytes, see the counterexample): the chunks of
`chunk_text` are slices of `T` whose spans cover every byte position,
consecutive full-width chunks share exactly `O` boundary bytes, and
concatenating each non-last chunk's first `C - O` bytes followed by the whole
last chunk reconstructs `T`. -/
theorem chunk_text_reconstruction_ascii (t : List Nat) (C O : Nat)
    (hA : ∀ b ∈ t, b < 128) (hO : O < C) :
    (∃ ss : List Nat, chunk_text t C O = ss.map (fun a => (t.drop a).take C) ∧
      ∀ j < t.length, ∃ a ∈ ss, a ≤ j ∧ j < a + ((t.drop a).take C).length) ∧
    List.Chain' (fun u v => u.length = C → v.length = C → u.drop (C - O) = v.take O)
      (chunk_text t C O) ∧
    reconChunks (C - O) (chunk_text t C O) = t := by
  by_cases h0 : t.length = 0
  · have ht : t = [] := List.length_eq_zero.mp h0
    subst ht
    have hct : chunk_text [] C O = [] := rfl
    refine ⟨⟨[], by simp [hct], by simp⟩, by simp [hct], by simp [hct, reconChunks]⟩
  · by_cases h1 : t.length ≤ C
    · have hct : chunk_text t C O = [t] := by
        unfold chunk_text chunk_textAux
        rw [if_neg h0, if_pos h1]
        rfl
      have htake : (t.drop 0).take C = t := by
        rw [List.drop_zero]
        exact List.take_of_length_le h1
      refine ⟨⟨[0], ?_, ?_⟩, ?_, ?_⟩
      · rw [hct]
        simp [htake, h1]
      · intro j hj
        refine ⟨0, List.mem_singleton.mpr rfl, Nat.zero_le j, ?_⟩
        rw [htake]
        omega
      · rw [hct]
        simp
      · rw [hct]
        rfl
    · have hloop := ascii_chunkLoop t C O hA hO (t.length + 1) 0 (by omega) (by omega)
      have hct : chunk_text t C O =
          (chunkStarts C O t.length (t.length + 1) 0).map (fun a => (t.drop a).take C) := by
        unfold chunk_text chunk_textAux
        rw [if_neg h0, if_neg h1, hloop]
        rfl
      refine ⟨⟨chunkStarts C O t.length (t.length + 1) 0, hct, ?_⟩, ?_, ?_⟩
      · intro j hj
        obtain ⟨a, ha, haj1, haj2⟩ :=
          chunkStarts_coverage C O t.length hO (t.length + 1) 0 j (by omega) (by omega)
            (Nat.zero_le j) hj
        refine ⟨a, ha, haj1, ?_⟩
        rw [List.length_take, List.length_drop]
        omega
      · rw [hct]
        refine List.Chain'.imp ?_ (chunkStarts_overlap t C O hO (t.length + 1) 0)
        intro u v huv _ _
        exact huv
      · rw [hct]
        have := chunkStarts_recon t C O hO (t.length + 1) 0 (by omega) (by omega)
        rw [this]
        exact List.drop_zero t

/-- Witness for the amended reconstruction theorem at a concrete ASCII
input. -/
theorem chunk_text_reconstruction_ascii_witness :
    reconChunks (10 - 2)
        (chunk_text [48, 49, 50, 51, 52, 53, 54, 55, 56, 57, 65, 66, 67, 68, 69, 70] 10 2) =
      [48, 49, 50, 51, 52, 53, 54, 55, 56, 57, 65, 66, 67, 68, 69, 70] :=
  (chunk_text_reconstruction_ascii
    [48, 49, 50, 51, 52, 53, 54, 55, 56, 57, 65, 66, 67, 68, 69, 70] 10 2
    (by decide) (by decide)).2.2

/-! ## VectorStore model: LanceDB backend
    (src/nucleus-core/src/rag/lancedb_store.rs, src/nucleus-core/src/rag/types.rs)

Embedding values are opaque to every modelled operation (only lengths are
inspected), so `f32` entries are represented by `Nat` placeholders. -/

/-- Model of `Document`: id, content bytes, embedding vector, metadata map
(modelled as an association list; `Document::new` starts empty and
`with_metadata` inserts). -/
structure Document where
  id : String
  content : List Nat
  embedding : List Nat
  metadata : List (String × String)
deriving DecidableEq

/-- Lookup in the metadata association list (model of `HashMap::get`). -/
def Document.getMeta (d : Document) (k : String) : Option String :=
  (d.metadata.find? (fun p => p.1 == k)).map (·.2)

/-- Model of the LanceDB-backed store: the configured embedding dimension
and the table rows in insertion order. -/
structure LanceStore where
  vectorSize : Nat
  rows : List Document
deriving DecidableEq

/-- Model of `LanceDbStore::count` (`table.count_rows`). -/
def LanceStore.count (st : LanceStore) : Nat := st.rows.length

/-- Model of `LanceDbStore::create_record_batch`: validates that every
document's embedding has the configured size before building the batch,
failing on the first offender. -/
def create_record_batch (st : LanceStore) (docs : List Document) :
    Except String (List Document) :=
  match docs.find? (fun d => decide (d.embedding.length ≠ st.vectorSize)) with
  | some d => .error ("Document " ++ d.id ++ " has embedding size mismatch")
  | none => .ok docs

/-- Model of `LanceDbStore::add`: empty batches are a no-op; otherwise the
batch is validated by `create_record_batch` and, on success, appended to the
table (`table.add` appends rows; it does not upsert).  The pair returns the
store state after the call together with the call's outcome: on a validation
error the store is untouched because `table.add` is never reached. -/
def LanceStore.add (st : LanceStore) (docs : List Document) :
    LanceStore × Except String Unit :=
  if docs.isEmpty then (st, .ok ())
  else
    match create_record_batch st docs with
    | .error e => (st, .error e)
    | .ok batch => ({ st with rows := st.rows ++ batch }, .ok ())

/-- Character-level model of `str::replace("\\", "/")` (the pattern is a
single character, so a character map is exact). -/
def normSlashes (s : String) : String :=
  String.mk (s.data.map (fun c => if c = '\\' then '/' else c))

/-- Character-level model of `str::starts_with`. -/
def strStartsWith (s p : String) : Bool :=
  decide (s.data.take p.data.length = p.data)

/-- Model of `LanceDbStore::remove_by_source`: normalize the query path and
every row's `source` metadata by replacing backslashes, collect the ids of
rows whose source equals the path or starts with `path ++ "/"`, delete rows
with those ids, and return the number of matched rows. -/
def LanceStore.remove_by_source (st : LanceStore) (path : String) :
    Nat × LanceStore :=
  let norm := normSlashes path
  let srcMatch := fun (d : Document) =>
    match d.getMeta "source" with
    | none => false
    | some s =>
      let ps := normSlashes s
      ps == norm || strStartsWith ps (norm ++ "/")
  let ids := (st.rows.filter srcMatch).map (·.id)
  (ids.length, { st with rows := st.rows.filter (fun d => ¬ ids.contains d.id) })

/-! ## RagEngine operations over the LanceDB store
    (src/nucleus-core/src/rag/mod.rs) -/

/-- Model of `RagEngine::add_knowledge`: embeds the content (the embedder is
passed in as a function), forms the id `"{source}_{count}"` from the store's
current count, attaches `source` metadata, and adds the single document. -/
def add_knowledge (st : LanceStore) (content : List Nat) (source : String)
    (embed : List Nat → List Nat) : LanceStore × Except String Unit :=
  st.add [⟨source ++ "_" ++ Nat.repr st.count, content, embed content, [("source", source)]⟩]

/-- Split a document list into batches of `B` (the indexing loop flushes the
chunk buffer whenever it reaches `BATCH_SIZE = 32`); fueled to stay
structural, `ds.length` fuel always suffices for `B ≥ 1`. -/
def toBatches (B : Nat) : Nat → List Document → List (List Document)
  | 0, ds => if ds.isEmpty then [] else [ds]
  | f + 1, ds => if ds.isEmpty then [] else ds.take B :: toBatches B f (ds.drop B)

/-- Model of the sequence of `process_batch` calls: each batch is added in
turn; the first failing batch aborts, keeping previously committed batches. -/
def addBatchesGo : List (List Document) → LanceStore → LanceStore × Except String Unit
  | [], st => (st, .ok ())
  | b :: bs, st =>
    match st.add b with
    | (st2, .ok _) => addBatchesGo bs st2
    | (st2, .error e) => (st2, .error e)

/-- Model of `RagEngine::index_directory` restricted to a single collected
file `(path, content)`: skip empty content and empty chunk lists, otherwise
build one document per chunk with id `"{path}_chunk_{i}"`, `source` and
`chunk` metadata, embed, and insert in batches of 32.  No
`remove_by_source` call precedes the insertions. -/
def indexFile (st : LanceStore) (path : String) (content : List Nat)
    (C O : Nat) (embed : List Nat → List Nat) : LanceStore × Except String Unit :=
  if content.isEmpty then (st, .ok ())
  else
    let chunks := chunk_text content C O
    if chunks.isEmpty then (st, .ok ())
    else
      let docs := chunks.enum.map (fun p =>
        Document.mk (path ++ "_chunk_" ++ Nat.repr p.1) p.2 (embed p.2)
          [("source", path), ("chunk", Nat.repr p.1)])
      addBatchesGo (toBatches 32 docs.length docs) st

/-! ### Store theorems -/

lemma lance_add_ok (st : LanceStore) (docs : List Document) (st2 : LanceStore)
    (h : st.add docs = (st2, .ok ())) :
    st2.rows = st.rows ++ docs ∧ ∀ d ∈ docs, d.embedding.length = st.vectorSize := by
  unfold LanceStore.add create_record_batch at h
  by_cases he : docs.isEmpty = true
  · rw [if_pos he] at h
    have hd : docs = [] := List.isEmpty_iff.mp he
    subst hd
    have h1 : st = st2 := congrArg Prod.fst h
    refine ⟨?_, by simp⟩
    rw [← h1]
    simp
  · rw [if_neg he] at h
    cases hf : docs.find? (fun d => decide (d.embedding.length ≠ st.vectorSize)) with
    | some x =>
      rw [hf] at h
      have h2 : ((st, Except.error ("Document " ++ x.id ++ " has embedding size mismatch")) :
          LanceStore × Except String Unit) = (st2, .ok ()) := h
      exact absurd (congrArg Prod.snd h2) (by simp)
    | none =>
      rw [hf] at h
      have h2 : (({ st with rows := st.rows ++ docs }, (.ok () : Except String Unit)) :
          LanceStore × Except String Unit) = (st2, .ok ()) := h
      have h1 : ({ st with rows := st.rows ++ docs } : LanceStore) = st2 :=
        congrArg Prod.fst h2
      refine ⟨by rw [← h1], ?_⟩
      intro d hd
      have := List.find?_eq_none.mp hf d hd
      simpa using this

lemma lance_add_of_bad (st : LanceStore) (docs : List Document)
    (hbad : ∃ d ∈ docs, d.embedding.length ≠ st.vectorSize) :
    ∃ e, st.add docs = (st, .error e) := by
  obtain ⟨d, hd, hlen⟩ := hbad
  have hne : docs.isEmpty = false := by
    cases docs with
    | nil => exact absurd hd (List.not_mem_nil d)
    | cons a l => rfl
  cases hf : docs.find? (fun d => decide (d.embedding.length ≠ st.vectorSize)) with
  | none =>
    exfalso
    have := List.find?_eq_none.mp hf d hd
    simp at this
    exact hlen this
  | some x =>
    refine ⟨"Document " ++ x.id ++ " has embedding size mismatch", ?_⟩
    unfold LanceStore.add create_record_batch
    rw [if_neg (by simp [hne]), hf]

/-- Claim C8: `add` fails when some document's embedding length differs from
the configured dimension `D`, and then the store is unchanged (validation in
`create_record_batch` happens before the table insert); a successful `add`
appends exactly the batch, whose members all have embedding length `D`, so
the all-rows dimension invariant is preserved. -/
theorem lance_add_dimension_invariant (st : LanceStore) (docs : List Document) :
    ((∃ d ∈ docs, d.embedding.length ≠ st.vectorSize) →
      (st.add docs).1 = st ∧ ∃ e, (st.add docs).2 = .error e) ∧
    (∀ st2, st.add docs = (st2, .ok ()) →
      st2.rows = st.rows ++ docs ∧ ∀ d ∈ docs, d.embedding.length = st.vectorSize) ∧
    ((∀ d ∈ st.rows, d.embedding.length = st.vectorSize) →
      ∀ st2, st.add docs = (st2, .ok ()) →
        ∀ d ∈ st2.rows, d.embedding.length = st.vectorSize) := by
  refine ⟨?_, ?_, ?_⟩
  · intro hbad
    obtain ⟨e, he⟩ := lance_add_of_bad st docs hbad
    rw [he]
    exact ⟨rfl, e, rfl⟩
  · intro st2 h
    exact lance_add_ok st docs st2 h
  · intro hinv st2 h d hd
    obtain ⟨hrows, hdocs⟩ := lance_add_ok st docs st2 h
    rw [hrows] at hd
    rcases List.mem_append.mp hd with hmem | hmem
    · exact hinv d hmem
    · exact hdocs d hmem

/-- Witness for the dimension-invariant theorem: a one-document batch with a
wrong-sized embedding is rejected and leaves the store unchanged. -/
theorem lance_add_dimension_invariant_witness :
    ((LanceStore.mk 2 []).add [⟨"a", [], [0], []⟩]).1 = LanceStore.mk 2 [] ∧
      ∃ e, ((LanceStore.mk 2 []).add [⟨"a", [], [0], []⟩]).2 = .error e :=
  (lance_add_dimension_invariant (LanceStore.mk 2 []) [⟨"a", [], [0], []⟩]).1
    ⟨⟨"a", [], [0], []⟩, List.mem_singleton.mpr rfl, by decide⟩

/-- Claim C10: a successful `add_knowledge` inserts exactly one document,
whose id is `"{source}_{n}"` with `n` the store count at call time and whose
metadata maps `"source"` to the given source; because the id depends only on
the count, two calls with the same source produce the same id when the count
repeats (concretely: add, remove_by_source, add again both yield `"src_0"`). -/
theorem add_knowledge_spec (st : LanceStore) (content : List Nat) (source : String)
    (embed : List Nat → List Nat) (hdim : (embed content).length = st.vectorSize) :
    (add_knowledge st content source embed).2 = .ok () ∧
    (add_knowledge st content source embed).1.rows =
      st.rows ++ [⟨source ++ "_" ++ Nat.repr st.count, content, embed content,
        [("source", source)]⟩] ∧
    (⟨source ++ "_" ++ Nat.repr st.count, content, embed content,
      [("source", source)]⟩ : Document).getMeta "source" = some source ∧
    ((add_knowledge (LanceStore.mk 1 []) [104] "src" (fun _ => [0])).1.rows.map Document.id
        = ["src_0"] ∧
      (add_knowledge
          (((add_knowledge (LanceStore.mk 1 []) [104] "src"
            (fun _ => [0])).1.remove_by_source "src").2)
          [105] "src" (fun _ => [0])).1.rows.map Document.id = ["src_0"]) := by
  have hok : add_knowledge st content source embed =
      ({ st with rows := st.rows ++ [⟨source ++ "_" ++ Nat.repr st.count, content,
        embed content, [("source", source)]⟩] }, .ok ()) := by
    unfold add_knowledge LanceStore.add create_record_batch
    rw [if_neg (by simp)]
    have hf : List.find?
        (fun (d : Document) => decide (d.embedding.length ≠ st.vectorSize))
        [⟨source ++ "_" ++ Nat.repr st.count, content, embed content,
          [("source", source)]⟩] = none := by
      rw [List.find?_eq_none]
      intro x hx
      rw [List.mem_singleton.mp hx]
      simpa using hdim
    rw [hf]
  refine ⟨by rw [hok], by rw [hok], by simp [Document.getMeta, List.find?], by decide, by decide⟩

/-- Witness for the `add_knowledge` theorem at a concrete input. -/
theorem add_knowledge_spec_witness :
    (add_knowledge (LanceStore.mk 1 []) [104] "doc" (fun _ => [7])).2 = .ok () ∧
      (add_knowledge (LanceStore.mk 1 []) [104] "doc" (fun _ => [7])).1.rows =
        [] ++ [⟨"doc" ++ "_" ++ Nat.repr (LanceStore.mk 1 []).count, [104], [7],
          [("source", "doc")]⟩] :=
  ⟨(add_knowledge_spec (LanceStore.mk 1 []) [104] "doc" (fun _ => [7]) (by decide)).1,
    (add_knowledge_spec (LanceStore.mk 1 []) [104] "doc" (fun _ => [7]) (by decide)).2.1⟩

/-- Claim C2 is violated by the embedded (LanceDB) store: `LanceDbStore::add`
appends rows without any upsert and `index_directory` never calls
`remove_by_source`, so indexing the same file twice doubles its chunks
instead of leaving `count()` unchanged.  Concretely, indexing the one-chunk
file "f.txt" (content "hello") twice takes the count from 0 to 1 and then to
2. -/
theorem index_twice_duplicates :
    (indexFile (LanceStore.mk 1 []) "f.txt" [104, 101, 108, 108, 111] 512 50
        (fun _ => [0])).1.count = 1 ∧
    (indexFile
        (indexFile (LanceStore.mk 1 []) "f.txt" [104, 101, 108, 108, 111] 512 50
          (fun _ => [0])).1
        "f.txt" [104, 101, 108, 108, 111] 512 50 (fun _ => [0])).1.count = 2 ∧
    (1 : Nat) ≠ 2 := by
  exact ⟨by decide, by decide, by decide⟩

/-! ## Retrieval formatting
    (src/nucleus-core/src/rag/mod.rs, `RagEngine::retrieve_context`)

The embedding call and vector search are external I/O; the searched result
contents reach the formatting code as a list of strings, which together with
the store count fully determines the returned context string. -/

/-- The fixed context header from `retrieve_context`. -/
def retrieveContextHeader : String := "\n\nRelevant context from your knowledge base:\n"

/-- Model of the formatting loop: for each result, starting at index `i`,
push `"\n[{i}] {content}\n"`. -/
def formatResults : Nat → List String → String
  | _, [] => ""
  | i, r :: rs => "\n[" ++ Nat.repr i ++ "] " ++ r ++ "\n" ++ formatResults (i + 1) rs

/-- Model of `retrieve_context`: empty store or empty search result give the
empty string, otherwise the header followed by the numbered results
(numbering starts at 1). -/
def retrieve_context (count : Nat) (results : List String) : String :=
  if count = 0 then ""
  else if results.isEmpty then ""
  else retrieveContextHeader ++ formatResults 1 results

/-- Spec-worded rendering of a single entry `i` (0-based pair from `enum`,
printed 1-based): `"\n[{i}] {content}\n"`. -/
def entryString (p : Nat × String) : String :=
  "\n[" ++ Nat.repr (p.1 + 1) ++ "] " ++ p.2 ++ "\n"

/-- Plain concatenation of a list of strings. -/
def joinStrings : List String → String
  | [] => ""
  | s :: rest => s ++ joinStrings rest

lemma formatResults_eq_join (rs : List String) :
    ∀ n, formatResults (n + 1) rs = joinStrings ((List.enumFrom n rs).map entryString) := by
  induction rs with
  | nil => intro n; rfl
  | cons r rest ih =>
    intro n
    simp only [formatResults, List.enumFrom, List.map_cons, joinStrings, entryString]
    rw [ih (n + 1)]

/-- Claim C4: `retrieve_context` returns `""` when the store count is 0 or
the search result list is empty; otherwise it returns exactly the fixed
header followed by `"\n[{i}] {content}\n"` for each result `i = 1..k` in
result order, as in the concrete scenario S6. -/
theorem retrieve_context_format (count : Nat) (results : List String) :
    (count = 0 → retrieve_context count results = "") ∧
    (results = [] → retrieve_context count results = "") ∧
    (count ≠ 0 → results ≠ [] →
      retrieve_context count results =
        retrieveContextHeader ++ joinStrings (results.enum.map entryString)) ∧
    retrieve_context 2 ["alpha", "beta"] =
      "\n\nRelevant context from your knowledge base:\n\n[1] alpha\n\n[2] beta\n" := by
  refine ⟨?_, ?_, ?_, by decide⟩
  · intro h
    unfold retrieve_context
    rw [if_pos h]
  · intro h
    unfold retrieve_context
    by_cases hc : count = 0
    · rw [if_pos hc]
    · rw [if_neg hc, if_pos (by simp [h])]
  · intro hc hr
    unfold retrieve_context
    rw [if_neg hc, if_neg (by simp [hr])]
    have := formatResults_eq_join results 0
    rw [this]
    rfl

/-- Witness for the retrieval-format theorem at concrete inputs. -/
theorem retrieve_context_format_witness :
    retrieve_context 0 ["x"] = "" ∧ retrieve_context 1 [] = "" ∧
      retrieve_context 1 ["x"] =
        retrieveContextHeader ++ joinStrings ((["x"].enum).map entryString) :=
  ⟨(retrieve_context_format 0 ["x"]).1 rfl, (retrieve_context_format 1 []).2.1 rfl,
    (retrieve_context_format 1 ["x"]).2.2.1 (by decide) (by decide)⟩

/-! ## Permissions and the plugin registry
    (src/nucleus-plugin/src/plugin.rs, src/nucleus-plugin/src/registry.rs) -/

/-- Model of `Permission`: a bit-set over read / write / execute. -/
structure Permission where
  read : Bool
  write : Bool
  execute : Bool
deriving DecidableEq

/-- Model of `Permission::READ_ONLY`. -/
def Permission.READ_ONLY : Permission := ⟨true, false, false⟩

/-- Model of `Permission::READ_WRITE`. -/
def Permission.READ_WRITE : Permission := ⟨true, true, false⟩

/-- Model of `Permission::ALL`. -/
def Permission.ALL : Permission := ⟨true, true, true⟩

/-- Model of `Permission::NONE`. -/
def Permission.NONE : Permission := ⟨false, false, false⟩

/-- Model of `Permission::allows`: every required capability bit is granted. -/
def Permission.allows (self required : Permission) : Bool :=
  (!required.read || self.read) && (!required.write || self.write) &&
    (!required.execute || self.execute)

/-- Model of a `Plugin` trait object: its name, its required permission, and
its `execute` body (arguments and output modelled as strings; errors as the
error's display string). -/
structure PluginM where
  name : String
  required : Permission
  run : String → Except String String

/-- Model of `PluginRegistry`: a name-keyed map (association list with
insert-overwrite, modelling `HashMap`) plus the granted permission fixed at
construction. -/
structure PluginRegistry where
  plugins : List (String × PluginM)
  granted : Permission

/-- Model of `PluginRegistry::new`. -/
def PluginRegistry.new (granted : Permission) : PluginRegistry := ⟨[], granted⟩

/-- Insert-overwrite into the name-keyed map (model of `HashMap::insert`). -/
def insertPlugin : List (String × PluginM) → String → PluginM → List (String × PluginM)
  | [], k, p => [(k, p)]
  | (k2, p2) :: rest, k, p =>
    if k2 = k then (k, p) :: rest else (k2, p2) :: insertPlugin rest k p

/-- Model of `PluginRegistry::register`: rejected (registry unchanged, false)
unless the granted permission allows the plugin's required permission, in
which case the plugin is stored under its name and true is returned. -/
def PluginRegistry.register (reg : PluginRegistry) (p : PluginM) :
    PluginRegistry × Bool :=
  if reg.granted.allows p.required then
    ({ reg with plugins := insertPlugin reg.plugins p.name p }, true)
  else (reg, false)

/-- Model of `PluginRegistry::all`: the stored plugin values. -/
def PluginRegistry.all (reg : PluginRegistry) : List PluginM := reg.plugins.map (·.2)

/-- Model of `PluginRegistry::get`. -/
def PluginRegistry.get (reg : PluginRegistry) (name : String) : Option PluginM :=
  (reg.plugins.find? (fun q => q.1 == name)).map (·.2)

/-- Model of `PluginRegistry::execute`: look the plugin up by name, failing
with `"Unknown plugin: {name}"` when absent, else run it. -/
def PluginRegistry.execute (reg : PluginRegistry) (name input : String) :
    Except String String :=
  match reg.get name with
  | none => .error ("Unknown plugin: " ++ name)
  | some p => p.run input

/-- Any sequence of register calls starting from a registry state. -/
def registerAll (reg : PluginRegistry) (ps : List PluginM) : PluginRegistry :=
  ps.foldl (fun r p => (r.register p).1) reg

lemma mem_insertPlugin (k : String) (p : PluginM) :
    ∀ l q, q ∈ insertPlugin l k p → q = (k, p) ∨ q ∈ l := by
  intro l
  induction l with
  | nil =>
    intro q hq
    simp only [insertPlugin] at hq
    exact Or.inl (List.mem_singleton.mp hq)
  | cons hd tl ih =>
    intro q hq
    obtain ⟨k2, p2⟩ := hd
    simp only [insertPlugin] at hq
    by_cases hk : k2 = k
    · rw [if_pos hk] at hq
      rcases List.mem_cons.mp hq with h | h
      · exact Or.inl h
      · exact Or.inr (List.mem_cons_of_mem _ h)
    · rw [if_neg hk] at hq
      rcases List.mem_cons.mp hq with h | h
      · exact Or.inr (h ▸ List.mem_cons_self _ _)
      · rcases ih q h with h2 | h2
        · exact Or.inl h2
        · exact Or.inr (List.mem_cons_of_mem _ h2)

lemma self_mem_insertPlugin (k : String) (p : PluginM) :
    ∀ l, (k, p) ∈ insertPlugin l k p := by
  intro l
  induction l with
  | nil => exact List.mem_singleton.mpr rfl
  | cons hd tl ih =>
    obtain ⟨k2, p2⟩ := hd
    simp only [insertPlugin]
    by_cases hk : k2 = k
    · rw [if_pos hk]
      exact List.mem_cons_self _ _
    · rw [if_neg hk]
      exact List.mem_cons_of_mem _ ih

lemma register_granted (reg : PluginRegistry) (p : PluginM) :
    ((reg.register p).1).granted = reg.granted := by
  unfold PluginRegistry.register
  split <;> rfl

lemma registerAll_sound (granted : Permission) :
    ∀ ps reg, reg.granted = granted →
      (∀ q ∈ reg.plugins, granted.allows q.2.required = true) →
      ∀ q ∈ (registerAll reg ps).plugins, granted.allows q.2.required = true := by
  intro ps
  induction ps with
  | nil =>
    intro reg hg hinv q hq
    exact hinv q hq
  | cons p rest ih =>
    intro reg hg hinv q hq
    have hq2 : q ∈ (registerAll (reg.register p).1 rest).plugins := hq
    refine ih (reg.register p).1 (by rw [register_granted, hg]) ?_ q hq2
    intro q2 hq3
    unfold PluginRegistry.register at hq3
    by_cases ha : reg.granted.allows p.required = true
    · rw [if_pos ha] at hq3
      rcases mem_insertPlugin p.name p reg.plugins q2 hq3 with h | h
      · rw [h]
        rw [hg] at ha
        exact ha
      · exact hinv q2 h
    · rw [if_neg ha] at hq3
      exact hinv q2 hq3

/-- Claim C3: starting from a freshly constructed registry, after any
sequence of register calls every stored plugin's required permission is
dominated by the granted permission; `register` returns exactly the
domination check (true iff every required capability bit is granted), a
rejected registration leaves the registry unchanged, and an accepted one
stores the plugin. -/
theorem registry_permission_soundness (granted : Permission) (ps : List PluginM)
    (reg : PluginRegistry) (p : PluginM) :
    (∀ q ∈ (registerAll (PluginRegistry.new granted) ps).all,
      granted.allows q.required = true) ∧
    ((reg.register p).2 = reg.granted.allows p.required) ∧
    (reg.granted.allows p.required = true ↔
      ((p.required.read = true → reg.granted.read = true) ∧
        (p.required.write = true → reg.granted.write = true) ∧
        (p.required.execute = true → reg.granted.execute = true))) ∧
    ((reg.register p).2 = false → (reg.register p).1 = reg) ∧
    ((reg.register p).2 = true → p ∈ (reg.register p).1.all) := by
  refine ⟨?_, ?_, ?_, ?_, ?_⟩
  · intro q hq
    obtain ⟨pair, hpair, hq2⟩ := List.mem_map.mp hq
    have := registerAll_sound granted ps (PluginRegistry.new granted) rfl
      (by intro q2 hq3; exact absurd hq3 (List.not_mem_nil q2)) pair hpair
    rw [← hq2]
    exact this
  · unfold PluginRegistry.register
    by_cases h : reg.granted.allows p.required = true
    · rw [if_pos h, h]
    · rw [if_neg h]
      exact (Bool.not_eq_true _ ▸ h : _).symm
  · obtain ⟨gr, gw, ge⟩ := reg.granted
    obtain ⟨rr, rw2, re⟩ := p.required
    simp only [Permission.allows]
    cases gr <;> cases gw <;> cases ge <;> cases rr <;> cases rw2 <;> cases re <;> simp
  · intro h
    unfold PluginRegistry.register at h ⊢
    by_cases ha : reg.granted.allows p.required = true
    · rw [if_pos ha] at h
      exact absurd h (by simp)
    · rw [if_neg ha]
  · intro h
    unfold PluginRegistry.register at h ⊢
    by_cases ha : reg.granted.allows p.required = true
    · rw [if_pos ha]
      exact List.mem_map.mpr ⟨(p.name, p), self_mem_insertPlugin p.name p reg.plugins, rfl⟩
    · rw [if_neg ha] at h
      exact absurd h (by simp)

/-- A concrete read-only plugin used as witness data. -/
def witnessPlugin : PluginM := ⟨"test", Permission.READ_ONLY, fun _ => .ok "test output"⟩

/-- Witness for the registry soundness theorem: the read-only plugin stored
by a read-only registry satisfies the domination property, and a registry
granted nothing rejects it unchanged. -/
theorem registry_permission_soundness_witness :
    Permission.READ_ONLY.allows witnessPlugin.required = true ∧
    ((PluginRegistry.new Permission.NONE).register witnessPlugin).1 =
      PluginRegistry.new Permission.NONE :=
  ⟨(registry_permission_soundness Permission.READ_ONLY [witnessPlugin]
      (PluginRegistry.new Permission.READ_ONLY) witnessPlugin).1 witnessPlugin
      (List.mem_singleton.mpr rfl),
    (registry_permission_soundness Permission.NONE [] (PluginRegistry.new Permission.NONE)
      witnessPlugin).2.2.2.1 rfl⟩

/-! ## One round of the streaming chat loop
    (src/nucleus-core/src/chat/manager.rs, `ChatManager::query_stream`)

One `provider.chat` call delivers a finite list of chunks to the callback.
The callback accumulates every chunk's incremental content, forwards content
to `on_chunk` only for chunks with `done == false` and non-empty content,
and overwrites the pending tool_calls slot whenever a chunk carries one.
After the stream, the manager either returns the accumulated content (no
pending tool_calls), or appends the assistant message and executes the tool
calls in order.  `Message` is modelled by the fields the loop uses (role,
content, tool_calls). -/

/-- Model of `ToolCall` (function name and raw arguments). -/
structure ToolCall where
  name : String
  arguments : String
deriving DecidableEq

/-- Model of `Message` restricted to the fields used by the loop. -/
structure Message where
  role : String
  content : String
  toolCalls : Option (List ToolCall)
deriving DecidableEq

/-- Model of a `ChatResponse` chunk as seen by the streaming callback. -/
structure ChatChunk where
  content : String
  done : Bool
  toolCalls : Option (List ToolCall)
deriving DecidableEq

/-- The accumulated content: every chunk's incremental content, in order
(`accumulated_content.push_str(&response.content)` runs unconditionally). -/
def accumContent (chunks : List ChatChunk) : String :=
  chunks.foldl (fun acc c => acc ++ c.content) ""

/-- Concatenation of every string passed to `on_chunk`: the callback is
invoked only when `done == false` and the content is non-empty. -/
def onChunkConcat (chunks : List ChatChunk) : String :=
  chunks.foldl (fun acc c => if c.done = false ∧ c.content ≠ "" then acc ++ c.content else acc) ""

/-- The pending tool_calls slot: overwritten by every chunk that carries a
tool_calls list (`if let Some(...) = response.message.tool_calls`). -/
def pendingToolCalls (chunks : List ChatChunk) : Option (List ToolCall) :=
  chunks.foldl (fun acc c => match c.toolCalls with | some tcs => some tcs | none => acc) none

/-- The successful output of one tool call (meaningful when the execution
succeeded). -/
def toolOutput (reg : PluginRegistry) (tc : ToolCall) : String :=
  match reg.execute tc.name tc.arguments with
  | .ok out => out
  | .error _ => ""

/-- Model of the tool-execution loop: execute each call in emitted order via
the registry, appending one tool-role message per success; the first failure
aborts the query with an error naming the tool (`with_context(|| format!
("Failed to execute tool: \x7b\x7d", tool_name))`). -/
def execToolCalls (reg : PluginRegistry) (msgs : List Message) :
    List ToolCall → Except String (List Message)
  | [] => .ok msgs
  | tc :: rest =>
    match reg.execute tc.name tc.arguments with
    | .error _ => .error ("Failed to execute tool: " ++ tc.name)
    | .ok out => execToolCalls reg (msgs ++ [⟨"tool", out, none⟩]) rest

/-- The outcome of one round of the `query_stream` loop: return the final
content, continue into another round with the grown message list, or abort
with an error. -/
inductive RoundResult where
  | finished (content : String)
  | continuing (messages : List Message)
  | failed (err : String)
deriving DecidableEq

/-- Model of one iteration of the `loop` in `query_stream`, given the chunk
list one `provider.chat` call delivered: when no chunk carried a tool_calls
list the accumulated content is returned; otherwise the assistant message
(with the pending tool_calls) is appended and the calls are executed in
order. -/
def stepRound (reg : PluginRegistry) (messages : List Message)
    (chunks : List ChatChunk) : RoundResult :=
  match pendingToolCalls chunks with
  | none => .finished (accumContent chunks)
  | some tcs =>
    match execToolCalls reg (messages ++ [⟨"assistant", accumContent chunks, some tcs⟩]) tcs with
    | .error e => .failed e
    | .ok msgs2 => .continuing msgs2

/-! ### Streaming concatenation (claim C5) -/

/-- Claim C5 as stated is false: the accumulated (returned) content includes
the content of the `done == true` chunk, but `on_chunk` is never called for
it; a stream whose final chunk is `(content = "a", done = true)` with no
tool calls returns `"a"` while `on_chunk` received nothing. -/
theorem streaming_concat_counterexample :
    pendingToolCalls [⟨"a", true, none⟩] = none ∧
    stepRound (PluginRegistry.new Permission.NONE) [] [⟨"a", true, none⟩] =
      .finished "a" ∧
    onChunkConcat [⟨"a", true, none⟩] = "" ∧
    ("" : String) ≠ "a" :=
  ⟨rfl, rfl, rfl, by decide⟩

lemma foldl_onChunk_eq_accum (chunks : List ChatChunk)
    (hdone : ∀ c ∈ chunks, c.done = true → c.content = "") :
    ∀ acc : String,
      chunks.foldl (fun acc c => if c.done = false ∧ c.content ≠ "" then acc ++ c.content else acc) acc =
      chunks.foldl (fun acc c => acc ++ c.content) acc := by
  induction chunks with
  | nil => intro acc; rfl
  | cons c rest ih =>
    intro acc
    have hrest : ∀ c2 ∈ rest, c2.done = true → c2.content = "" := by
      intro c2 hc2
      exact hdone c2 (List.mem_cons_of_mem _ hc2)
    simp only [List.foldl_cons]
    by_cases hd : c.done = true
    · have hc : c.content = "" := hdone c (List.mem_cons_self _ _) hd
      rw [if_neg (by simp [hd])]
      rw [hc]
      rw [show acc ++ "" = acc from by simp]
      exact ih hrest acc
    · have hd2 : c.done = false := by
        cases hb : c.done
        · rfl
        · exact absurd hb hd
      by_cases he : c.content = ""
      · rw [if_neg (by simp [he])]
        rw [he]
        rw [show acc ++ "" = acc from by simp]
        exact ih hrest acc
      · rw [if_pos ⟨hd2, he⟩]
        exact ih hrest (acc ++ c.content)

/-- Claim C5, amended with the hypothesis the code actually needs: provided
every chunk delivered with `done == true` carries empty incremental content
(the code folds the done chunk's content into the return value but never
forwards it to `on_chunk`), a round that ends with no pending tool calls
returns exactly the concatenation of the `on_chunk` arguments. -/
theorem streaming_concat (reg : PluginRegistry) (msgs : List Message)
    (chunks : List ChatChunk)
    (hdone : ∀ c ∈ chunks, c.done = true → c.content = "")
    (hpend : pendingToolCalls chunks = none) :
    onChunkConcat chunks = accumContent chunks ∧
    stepRound reg msgs chunks = .finished (onChunkConcat chunks) := by
  have key : onChunkConcat chunks = accumContent chunks :=
    foldl_onChunk_eq_accum chunks hdone ""
  refine ⟨key, ?_⟩
  unfold stepRound
  rw [hpend, key]

/-- Witness for the amended streaming theorem on a concrete stream. -/
theorem streaming_concat_witness :
    onChunkConcat [⟨"he", false, none⟩, ⟨"llo", false, none⟩, ⟨"", true, none⟩] =
      accumContent [⟨"he", false, none⟩, ⟨"llo", false, none⟩, ⟨"", true, none⟩] ∧
    stepRound (PluginRegistry.new Permission.NONE) []
        [⟨"he", false, none⟩, ⟨"llo", false, none⟩, ⟨"", true, none⟩] =
      .finished (onChunkConcat [⟨"he", false, none⟩, ⟨"llo", false, none⟩, ⟨"", true, none⟩]) :=
  streaming_concat (PluginRegistry.new Permission.NONE) []
    [⟨"he", false, none⟩, ⟨"llo", false, none⟩, ⟨"", true, none⟩] (by decide) rfl

/-! ### Tool-call rounds (claim C6) -/

lemma execToolCalls_all_ok (reg : PluginRegistry) :
    ∀ tcs msgs, (∀ tc ∈ tcs, (reg.execute tc.name tc.arguments).isOk = true) →
      execToolCalls reg msgs tcs =
        .ok (msgs ++ tcs.map (fun tc => ⟨"tool", toolOutput reg tc, none⟩)) := by
  intro tcs
  induction tcs with
  | nil =>
    intro msgs h
    simp [execToolCalls]
  | cons tc rest ih =>
    intro msgs h
    have htc := h tc (List.mem_cons_self _ _)
    cases hx : reg.execute tc.name tc.arguments with
    | error e =>
      rw [hx] at htc
      exact absurd htc (by simp [Except.isOk, Except.toBool])
    | ok out =>
      simp only [execToolCalls, hx]
      refine (ih (msgs ++ [(⟨"tool", out, none⟩ : Message)])
        (fun tc2 h2 => h tc2 (List.mem_cons_of_mem _ h2))).trans ?_
      have hout : toolOutput reg tc = out := by
        unfold toolOutput
        rw [hx]
      rw [List.map_cons, hout]
      simp

lemma execToolCalls_fail (reg : PluginRegistry) :
    ∀ pre tc post e msgs,
      (∀ tc2 ∈ pre, (reg.execute tc2.name tc2.arguments).isOk = true) →
      reg.execute tc.name tc.arguments = .error e →
      execToolCalls reg msgs (pre ++ tc :: post) =
        .error ("Failed to execute tool: " ++ tc.name) := by
  intro pre
  induction pre with
  | nil =>
    intro tc post e msgs h hx
    simp only [List.nil_append, execToolCalls, hx]
  | cons q rest ih =>
    intro tc post e msgs h hx
    have hq := h q (List.mem_cons_self _ _)
    cases hy : reg.execute q.name q.arguments with
    | error e2 =>
      rw [hy] at hq
      exact absurd hq (by simp [Except.isOk, Except.toBool])
    | ok out =>
      simp only [List.cons_append, execToolCalls, hy]
      exact ih tc post e _ (fun z hz => h z (List.mem_cons_of_mem _ hz)) hx

/-- Claim C6 as stated is false at a pending-but-empty tool_calls list: when
a chunk carries `Some([])` the code appends the assistant message and starts
another round instead of returning the accumulated content (it branches on
`if let Some(tool_calls)`, not on emptiness). -/
theorem tool_round_empty_list_counterexample :
    pendingToolCalls [⟨"hi", true, some []⟩] = some [] ∧
    accumContent [⟨"hi", true, some []⟩] = "hi" ∧
    stepRound (PluginRegistry.new Permission.NONE) [] [⟨"hi", true, some []⟩] =
      .continuing [⟨"assistant", "hi", some []⟩] ∧
    stepRound (PluginRegistry.new Permission.NONE) [] [⟨"hi", true, some []⟩] ≠
      .finished "hi" :=
  ⟨rfl, rfl, rfl, by decide⟩

/-- Claim C6, amended on the empty-pending case: a round ending with a
non-empty pending tool_calls list appends the assistant message and executes
each call strictly in emitted order, appending one tool-role message with
the result content per success in that order (the statement holds for any
pending list); any failure aborts the query with an error naming that tool;
a round with NO pending tool_calls list (`None`) returns the accumulated
content and executes no plugin (the outcome is independent of the registry);
a pending-but-empty list (`Some([])`) instead starts another round with the
assistant message appended and no plugin executed. -/
theorem tool_round_execution (reg : PluginRegistry) (messages : List Message)
    (chunks : List ChatChunk) (tcs : List ToolCall) :
    (pendingToolCalls chunks = some tcs →
      (∀ tc ∈ tcs, (reg.execute tc.name tc.arguments).isOk = true) →
        stepRound reg messages chunks =
          .continuing ((messages ++ [⟨"assistant", accumContent chunks, some tcs⟩]) ++
            tcs.map (fun tc => ⟨"tool", toolOutput reg tc, none⟩))) ∧
    (∀ pre tc post e, pendingToolCalls chunks = some (pre ++ tc :: post) →
      (∀ tc2 ∈ pre, (reg.execute tc2.name tc2.arguments).isOk = true) →
      reg.execute tc.name tc.arguments = .error e →
        stepRound reg messages chunks = .failed ("Failed to execute tool: " ++ tc.name)) ∧
    (pendingToolCalls chunks = none →
      stepRound reg messages chunks = .finished (accumContent chunks) ∧
      ∀ reg2 : PluginRegistry, stepRound reg2 messages chunks = stepRound reg messages chunks) ∧
    (pendingToolCalls chunks = some [] →
      stepRound reg messages chunks =
        .continuing (messages ++ [⟨"assistant", accumContent chunks, some []⟩])) := by
  refine ⟨?_, ?_, ?_, ?_⟩
  · intro hp hok
    simp only [stepRound, hp, execToolCalls_all_ok reg tcs _ hok]
  · intro pre tc post e hp hpre hx
    simp only [stepRound, hp, execToolCalls_fail reg pre tc post e _ hpre hx]
  · intro hp
    constructor
    · simp only [stepRound, hp]
    · intro reg2
      simp only [stepRound, hp]
  · intro hp
    simp only [stepRound, hp, execToolCalls]

/-- A concrete always-succeeding plugin used as witness data. -/
def okPlugin : PluginM := ⟨"echo", Permission.ALL, fun s => .ok s⟩

/-- Witness for the tool-round theorem: a round with one pending call to a
registered, succeeding plugin continues with the assistant message and one
tool-role result message. -/
theorem tool_round_execution_witness :
    stepRound ⟨[("echo", okPlugin)], Permission.ALL⟩ []
        [⟨"", false, some [⟨"echo", "x"⟩]⟩] =
      .continuing (([] ++ [⟨"assistant",
          accumContent [⟨"", false, some [⟨"echo", "x"⟩]⟩], some [⟨"echo", "x"⟩]⟩]) ++
        [(⟨"echo", "x"⟩ : ToolCall)].map
          (fun tc => ⟨"tool", toolOutput ⟨[("echo", okPlugin)], Permission.ALL⟩ tc, none⟩)) :=
  (tool_round_execution ⟨[("echo", okPlugin)], Permission.ALL⟩ []
    [⟨"", false, some [⟨"echo", "x"⟩]⟩] [⟨"echo", "x"⟩]).1 rfl
    (by
      intro tc htc
      rw [List.mem_singleton.mp htc]
      rfl)

end Nucleus
